import Mathlib

/-!
Shallow embedding of the roster scheduling core from `RosterApp-V2.tsx`
(williamgledhill/rostergenerator), together with theorems settling the
specification claims about it.

Embedding conventions:
* JS numbers used as row indices are embedded as `Int` (all arithmetic in the
  core is integer arithmetic on row indices).
* `Math.floor (a / b)` is `Int.fdiv`, the JS `%` operator (sign of the
  dividend) is `Int.tmod`.
* The TS field `end` of `Task` is named `stop` here because `end` is a Lean
  keyword; likewise the task kind `break` is the constructor `breakKind` and
  the hyphenated kinds `school-pre` / `school-program` are `schoolPre` /
  `schoolProgram`.
* The React `setTasks(prev => ...)` functional updates are embedded as pure
  functions `List Task → List Task`; React applies queued functional updates
  sequentially, so composing these functions in call order is the exact
  semantics of the component code.
* The module-global id counter `seq` is carried explicitly in a `Store`
  record.
-/

namespace Roster

/-- The task kinds (TS union type `TaskType`). -/
inductive TaskType where
  | front
  | gallery
  | breakKind
  | prep
  | tour
  | tidy
  | schoolPre
  | schoolProgram
deriving DecidableEq, Repr

/-- A task block: `{ id, empId, type, label, start, end }`; the source field
`end` is called `stop` here. `start` is an inclusive row index, `stop` an
exclusive one. -/
structure Task where
  id : String
  empId : String
  type : TaskType
  label : String
  start : Int
  stop : Int
deriving DecidableEq, Repr

/-- `DAY_START_MIN = 9 * 60 + 30` — 09:30. -/
def DAY_START_MIN : Int := 9 * 60 + 30

/-- `TOTAL_ROWS = 26` — 09:30..16:00 in 15-minute slots. -/
def TOTAL_ROWS : Int := 26

/-- JS `String.prototype.padStart(2, "0")`: left-pad to length 2. -/
def padStart2 (s : String) : String :=
  if s.length ≥ 2 then s
  else if s.length = 1 then "0" ++ s
  else "0" ++ "0" ++ s

/-- `rowToTime(row)`: `mins = DAY_START_MIN + row*15`; hours are
`Math.floor(mins/60)` and minutes `mins % 60`, both zero-padded to two
digits and joined by `":"`. -/
def rowToTime (row : Int) : String :=
  let mins := DAY_START_MIN + row * 15
  let h := padStart2 (toString (Int.fdiv mins 60))
  let m := padStart2 (toString (Int.tmod mins 60))
  h ++ ":" ++ m

/-- Split a character list at every occurrence of `sep`, the semantics of
JS `String.prototype.split` with a single-character separator. -/
def splitOnChar (sep : Char) : List Char → List (List Char)
  | [] => [[]]
  | c :: cs =>
    if c = sep then [] :: splitOnChar sep cs
    else
      match splitOnChar sep cs with
      | [] => [[c]]
      | grp :: rest => (c :: grp) :: rest

/-- Numeric value of a decimal digit character. -/
def digitVal (c : Char) : Option Nat :=
  if '0' ≤ c ∧ c ≤ '9' then some (c.toNat - '0'.toNat) else none

/-- Accumulating decimal parser over a digit list. -/
def parseDigitsAux : List Char → Nat → Option Nat
  | [], acc => some acc
  | c :: cs, acc =>
    match digitVal c with
    | some d => parseDigitsAux cs (acc * 10 + d)
    | none => none

/-- Parse a non-empty all-digit character list as a `Nat` (the JS
`Number(...)` call on the numerals appearing in time strings; non-numeral
fields make the JS arithmetic `NaN`, embedded as `none`). -/
def parseDigits (cs : List Char) : Option Nat :=
  if cs.isEmpty then none else parseDigitsAux cs 0

/-- `toRow(hhmm)`: split on `":"`, parse the first two fields as numbers,
compute `Math.floor((mins - DAY_START_MIN)/15)` and clamp into
`[0, TOTAL_ROWS]`.  A string whose first two `":"`-fields are not numerals
does not denote a time (the JS code would yield `NaN`); that is `none` here. -/
def toRow (hhmm : String) : Option Int :=
  match (splitOnChar ':' hhmm.data).map parseDigits with
  | some h :: some m :: _ =>
      let mins : Int := (h : Int) * 60 + (m : Int)
      some (max 0 (min TOTAL_ROWS (Int.fdiv (mins - DAY_START_MIN) 15)))
  | _ => none

/-- `rowRangeLabel(start, end)` formats `"{rowToTime start}-{rowToTime end}"`. -/
def rowRangeLabel (start stop : Int) : String :=
  rowToTime start ++ "-" ++ rowToTime stop

/-- `TYPE_LABEL`: canonical rendered label per kind. -/
def TYPE_LABEL : TaskType → String
  | .front => "Front Desk"
  | .gallery => "Gallery"
  | .breakKind => "Break"
  | .prep => "Prep"
  | .tour => "Public Tour"
  | .tidy => "Finish"
  | .schoolPre => "School Pre"
  | .schoolProgram => "School Program"

/-- `isTourLike(t) = t === "tour" || t === "school-program"`. -/
def isTourLike (t : TaskType) : Bool :=
  t == .tour || t == .schoolProgram

/-- `uid()` produces `"t_" ++ toString n` for the incremented counter value
`n` (the global `seq` is carried in `Store.seq`). -/
def uid (n : Nat) : String := "t_" ++ toString n

/-- The loop body of `resolveOverlaps`, iterating over the task list and
building `next`.  Branches, in source order:
guard (other employee, or the `exceptId` task — kept);
no overlap (`t.end <= start || t.start >= end` — kept);
fully covered (dropped); left overlap (trim `end := start`); right overlap
(trim `start := end`); straddling (split into two copies).  The trailing
branch appends nothing, exactly like the source loop falling through. -/
def resolveLoop (empId : String) (s e : Int) (exceptId : Option String) :
    List Task → List Task
  | [] => []
  | t :: rest =>
    if t.empId ≠ empId ∨ exceptId = some t.id then
      t :: resolveLoop empId s e exceptId rest
    else if t.stop ≤ s ∨ t.start ≥ e then
      t :: resolveLoop empId s e exceptId rest
    else if t.start ≥ s ∧ t.stop ≤ e then
      resolveLoop empId s e exceptId rest
    else if t.start < s ∧ t.stop ≤ e then
      { t with stop := s } :: resolveLoop empId s e exceptId rest
    else if t.start ≥ s ∧ t.stop > e then
      { t with start := e } :: resolveLoop empId s e exceptId rest
    else if t.start < s ∧ t.stop > e then
      { t with stop := s } :: { t with start := e } ::
        resolveLoop empId s e exceptId rest
    else
      resolveLoop empId s e exceptId rest

/-- `resolveOverlaps(empId, start, end, exceptId?)` as the store updater it
queues: rewrite the task list by the loop above. -/
def resolveOverlaps (empId : String) (s e : Int) (exceptId : Option String)
    (prev : List Task) : List Task :=
  resolveLoop empId s e exceptId prev

/-- The merge condition `sameKind` from `mergeAdjacent`'s walk: same type,
same label, contiguous (`last.end === t.start`), and neither side tour-like. -/
def sameKind (last t : Task) : Bool :=
  last.type == t.type && last.label == t.label && last.stop == t.start &&
    !(isTourLike t.type) && !(isTourLike last.type)

/-- The walk of `mergeAdjacent` over the sorted per-employee array.  The
source keeps an array `keep` and mutates only its top element's `end`;
`cur` is that top element, merged tasks extend `cur.stop`, otherwise `cur`
is emitted and the walk continues from the new task. -/
def mergeWalkGo (cur : Task) : List Task → List Task
  | [] => [cur]
  | t :: rest =>
    if sameKind cur t then mergeWalkGo { cur with stop := t.stop } rest
    else cur :: mergeWalkGo t rest

/-- The full walk: empty input gives an empty `keep`. -/
def mergeWalk : List Task → List Task
  | [] => []
  | t :: rest => mergeWalkGo t rest

/-- The sort key of `arr.sort((a, b) => a.start - b.start)`: ascending
`start`. -/
def startLE (a b : Task) : Prop := a.start ≤ b.start

instance : DecidableRel startLE :=
  fun a b => inferInstanceAs (Decidable (a.start ≤ b.start))

/-- `mergeAdjacent(empId)`: filter the employee's tasks, sort by `start`
ascending, walk and merge, and append the kept tasks after all other
employees' tasks.  JS `sort` is a stable sort, and a stable sort is a
unique function of the comparator, so the structural `insertionSort`
(stable) is the exact semantics of `sort((a, b) => a.start - b.start)`. -/
def mergeAdjacent (empId : String) (prev : List Task) : List Task :=
  let arr := (prev.filter (fun t => decide (t.empId = empId))).insertionSort startLE
  let keep := mergeWalk arr
  prev.filter (fun t => decide (¬ t.empId = empId)) ++ keep

/-- The store: the `tasks` state plus the module-global id counter `seq`. -/
structure Store where
  tasks : List Task
  seq : Nat
deriving DecidableEq, Repr

/-- `addTaskAt(empId, row, type)`: build the single-slot task
`[row, row+1)` with the canonical label and a fresh id, resolve overlaps
for `[row, row+1)` with no `exceptId`, append the new task, and merge
adjacent tasks only when the kind is not tour-like.  (The source performs
no validation of `row` or `empId`.) -/
def addTaskAt (empId : String) (row : Int) (type : TaskType) (st : Store) :
    Store :=
  let seq' := st.seq + 1
  let newTask : Task :=
    { id := uid seq', empId := empId, type := type, label := TYPE_LABEL type,
      start := row, stop := row + 1 }
  let ts1 := resolveOverlaps empId row (row + 1) none st.tasks
  let ts2 := ts1 ++ [newTask]
  let ts3 := if !(isTourLike type) then mergeAdjacent empId ts2 else ts2
  { tasks := ts3, seq := seq' }

/-- Keyboard deletion (`onKey` with Delete/Backspace): remove every task
whose id equals the selected id. -/
def removeTask (selectedId : String) (prev : List Task) : List Task :=
  prev.filter (fun t => decide (¬ t.id = selectedId))

/-! ## Specification-level predicates -/

/-- Spec-worded per-task classification of the Overlap Resolver: a task of
another employee, or the `exceptId` task, is kept; otherwise it is rewritten
by its interval relation to `[s, e)` — retained when it does not overlap,
removed when fully covered, trimmed to `stop = s` on a left overlap, trimmed
to `start = e` on a right overlap, and replaced by two copies (one ending at
`s`, one starting at `e`, both keeping the original kind and label) when it
straddles both sides. -/
def rewriteByRelation (empId : String) (s e : Int) (exceptId : Option String)
    (t : Task) : List Task :=
  if t.empId ≠ empId ∨ exceptId = some t.id then [t]
  else if t.stop ≤ s ∨ t.start ≥ e then [t]
  else if t.start ≥ s ∧ t.stop ≤ e then []
  else if t.start < s ∧ t.stop ≤ e then [{ t with stop := s }]
  else if t.start ≥ s ∧ t.stop > e then [{ t with start := e }]
  else [{ t with stop := s }, { t with start := e }]

/-- All tasks of a list are well-formed: `start < end`. -/
def Wf (ts : List Task) : Prop := ∀ t ∈ ts, t.start < t.stop

/-- The `[start, end)` ranges of two tasks are disjoint as sets of rows. -/
def rangesDisjoint (a b : Task) : Prop :=
  ∀ r : Int, ¬(a.start ≤ r ∧ r < a.stop ∧ b.start ≤ r ∧ r < b.stop)

/-- Every two distinct tasks of one employee have disjoint ranges. -/
def EmpDisjoint (ts : List Task) : Prop :=
  ts.Pairwise (fun a b => a.empId = b.empId → rangesDisjoint a b)

/-- Separated ranges: one ends before the other starts.  For well-formed
tasks this is equivalent to `rangesDisjoint`. -/
def sep (a b : Task) : Prop := a.stop ≤ b.start ∨ b.stop ≤ a.start

/-- Every two distinct tasks of one employee are separated. -/
def EmpSep (ts : List Task) : Prop :=
  ts.Pairwise (fun a b => a.empId = b.empId → sep a b)

/-- Employee `empId` has a task of kind `k` with label `lab` covering row
`r`. -/
def covers (empId : String) (k : TaskType) (lab : String) (r : Int)
    (ts : List Task) : Prop :=
  ∃ t ∈ ts, t.empId = empId ∧ t.type = k ∧ t.label = lab ∧
    t.start ≤ r ∧ r < t.stop

/-- Coverage of a row by kind and label, with no employee restriction (used
for the per-employee sublists inside the Compactor). -/
def coversKL (k : TaskType) (lab : String) (r : Int) (ts : List Task) : Prop :=
  ∃ t ∈ ts, t.type = k ∧ t.label = lab ∧ t.start ≤ r ∧ r < t.stop

instance {ts : List Task} : Decidable (Wf ts) :=
  inferInstanceAs (Decidable (∀ t ∈ ts, t.start < t.stop))

instance {E : String} {k : TaskType} {lab : String} {r : Int}
    {ts : List Task} : Decidable (covers E k lab r ts) :=
  inferInstanceAs (Decidable (∃ t ∈ ts, t.empId = E ∧ t.type = k ∧
    t.label = lab ∧ t.start ≤ r ∧ r < t.stop))

instance {k : TaskType} {lab : String} {r : Int} {ts : List Task} :
    Decidable (coversKL k lab r ts) :=
  inferInstanceAs (Decidable (∃ t ∈ ts, t.type = k ∧ t.label = lab ∧
    t.start ≤ r ∧ r < t.stop))

/-- Iterated `addTaskAt`: apply the calls in order. -/
def placeCalls (calls : List (String × Int × TaskType)) (st : Store) : Store :=
  calls.foldl (fun s c => addTaskAt c.1 c.2.1 c.2.2 s) st

/-! ## Basic lemmas about the Overlap Resolver -/

lemma resolveLoop_eq_flatMap (empId : String) (s e : Int)
    (x : Option String) (l : List Task) :
    resolveLoop empId s e x l = l.flatMap (rewriteByRelation empId s e x) := by
  induction l with
  | nil => rfl
  | cons t rest ih =>
    simp only [resolveLoop, rewriteByRelation, List.flatMap_cons]
    split
    · simp [ih]
    · split
      · simp [ih]
      · split
        · simp [ih]
        · split
          · simp [ih]
          · split
            · simp [ih]
            · split
              · simp [ih]
              · omega

lemma resolveOverlaps_eq_flatMap (empId : String) (s e : Int)
    (x : Option String) (prev : List Task) :
    resolveOverlaps empId s e x prev =
      prev.flatMap (rewriteByRelation empId s e x) :=
  resolveLoop_eq_flatMap empId s e x prev

/-- Every piece produced from `t` keeps `t`'s id, employee, kind and label,
its range is contained in `t`'s, and it is well-formed whenever `t` is. -/
lemma mem_rewriteByRelation {empId : String} {s e : Int} {x : Option String}
    {t p : Task} (hp : p ∈ rewriteByRelation empId s e x t) :
    p.id = t.id ∧ p.empId = t.empId ∧ p.type = t.type ∧ p.label = t.label ∧
      t.start ≤ p.start ∧ p.stop ≤ t.stop ∧
      (t.start < t.stop → p.start < p.stop) := by
  unfold rewriteByRelation at hp
  split at hp
  · simp at hp; subst hp; simp
  · split at hp
    · simp at hp; subst hp; simp
    · split at hp
      · simp at hp
      · split at hp
        · simp at hp; subst hp
          refine ⟨rfl, rfl, rfl, rfl, le_refl _, ?_, ?_⟩ <;> simp_all <;> omega
        · split at hp
          · simp at hp; subst hp
            refine ⟨rfl, rfl, rfl, rfl, ?_, le_refl _, ?_⟩ <;> simp_all <;> omega
          · simp at hp
            rcases hp with hp | hp <;> subst hp
            · refine ⟨rfl, rfl, rfl, rfl, le_refl _, ?_, ?_⟩ <;> simp_all <;> omega
            · refine ⟨rfl, rfl, rfl, rfl, ?_, le_refl _, ?_⟩ <;> simp_all <;> omega

/-- A task of another employee, or the excepted task, is kept verbatim. -/
lemma rewriteByRelation_of_guard {empId : String} {s e : Int}
    {x : Option String} {t : Task} (h : t.empId ≠ empId ∨ x = some t.id) :
    rewriteByRelation empId s e x t = [t] := by
  unfold rewriteByRelation
  simp [h]

/-- After resolution with no `exceptId`, no remaining task of the target
employee overlaps `[s, e)`. -/
lemma rewriteByRelation_clears {empId : String} {s e : Int} {t p : Task}
    (hp : p ∈ rewriteByRelation empId s e none t) (hemp : p.empId = empId) :
    p.stop ≤ s ∨ p.start ≥ e := by
  have hpe := (mem_rewriteByRelation hp).2.1
  unfold rewriteByRelation at hp
  split at hp
  · rename_i hg
    simp at hp; subst hp
    rcases hg with hg | hg
    · exact absurd hemp hg
    · simp at hg
  · split at hp
    · simp at hp; subst hp; assumption
    · split at hp
      · simp at hp
      · split at hp
        · simp at hp; subst hp; left; rfl
        · split at hp
          · simp at hp; subst hp; right; rfl
          · simp at hp
            rcases hp with hp | hp <;> subst hp
            · left; rfl
            · right; rfl

/-- Re-classifying a produced piece keeps it unchanged. -/
lemma rewriteByRelation_fixed {empId : String} {s e : Int} {x : Option String}
    {t p : Task} (hp : p ∈ rewriteByRelation empId s e x t) :
    rewriteByRelation empId s e x p = [p] := by
  unfold rewriteByRelation at hp
  split at hp
  · rename_i hg
    simp at hp; subst hp
    exact rewriteByRelation_of_guard hg
  · rename_i hg
    split at hp
    · rename_i hno
      simp at hp; subst hp
      unfold rewriteByRelation
      rw [if_neg hg, if_pos hno]
    · split at hp
      · simp at hp
      · split at hp
        · simp at hp; subst hp
          unfold rewriteByRelation
          rw [if_neg (by simpa using hg), if_pos (by left; simp)]
        · split at hp
          · simp at hp; subst hp
            unfold rewriteByRelation
            rw [if_neg (by simpa using hg), if_pos (by right; simp)]
          · simp at hp
            rcases hp with hp | hp <;> subst hp
            · unfold rewriteByRelation
              rw [if_neg (by simpa using hg), if_pos (by left; simp)]
            · unfold rewriteByRelation
              rw [if_neg (by simpa using hg), if_pos (by right; simp)]

lemma flatMap_eq_self {α : Type} {l : List α} {f : α → List α}
    (h : ∀ p ∈ l, f p = [p]) : l.flatMap f = l := by
  induction l with
  | nil => rfl
  | cons a rest ih =>
    simp only [List.flatMap_cons, h a (List.mem_cons_self a rest)]
    simp [ih fun p hp => h p (List.mem_cons_of_mem a hp)]

/-! ## Basic lemmas about the Compactor walk -/

/-- The walk only changes `stop` fields: every emitted task agrees with some
input task on id, employee, kind, label and start. -/
lemma mergeWalkGo_mem :
    ∀ (rest : List Task) (cur p : Task), p ∈ mergeWalkGo cur rest →
      ∃ q ∈ cur :: rest, p.id = q.id ∧ p.empId = q.empId ∧
        p.type = q.type ∧ p.label = q.label ∧ p.start = q.start := by
  intro rest
  induction rest with
  | nil =>
    intro cur p hp
    simp [mergeWalkGo] at hp
    exact ⟨cur, by simp, by simp [hp]⟩
  | cons t rest ih =>
    intro cur p hp
    simp only [mergeWalkGo] at hp
    split at hp
    · obtain ⟨q, hq, hfields⟩ := ih _ p hp
      rcases List.mem_cons.mp hq with hq | hq
      · exact ⟨cur, by simp, by simp [hq] at hfields ⊢; tauto⟩
      · exact ⟨q, by simp [hq], hfields⟩
    · rcases List.mem_cons.mp hp with hp | hp
      · exact ⟨cur, by simp, by simp [hp]⟩
      · obtain ⟨q, hq, hfields⟩ := ih _ p hp
        exact ⟨q, by simp [List.mem_cons.mp hq], hfields⟩

/-- Every task emitted by the walk keeps the employee id of the inputs. -/
lemma mergeWalkGo_empId {E : String} :
    ∀ (rest : List Task) (cur : Task), (∀ x ∈ cur :: rest, x.empId = E) →
      ∀ p ∈ mergeWalkGo cur rest, p.empId = E := by
  intro rest cur hall p hp
  obtain ⟨q, hq, hfields⟩ := mergeWalkGo_mem rest cur p hp
  rw [hfields.2.1]
  exact hall q hq

/-- The walk emits a non-empty list whose head is the starting task with a
possibly extended `stop`. -/
lemma mergeWalkGo_head :
    ∀ (rest : List Task) (cur : Task),
      ∃ z l', mergeWalkGo cur rest = { cur with stop := z } :: l' := by
  intro rest
  induction rest with
  | nil => exact fun cur => ⟨cur.stop, [], rfl⟩
  | cons t rest ih =>
    intro cur
    simp only [mergeWalkGo]
    split
    · obtain ⟨z, l', hl⟩ := ih { cur with stop := t.stop }
      exact ⟨z, l', hl⟩
    · exact ⟨cur.stop, mergeWalkGo t rest, rfl⟩

/-- `sameKind` ignores the second task's `stop` field. -/
lemma sameKind_stop (cur t : Task) (z : Int) :
    sameKind cur { t with stop := z } = sameKind cur t := rfl

/-- Unfolding of the merge condition into its five propositional parts. -/
lemma sameKind_spec {cur t : Task} :
    sameKind cur t = true ↔
      (cur.type = t.type ∧ cur.label = t.label ∧ cur.stop = t.start ∧
        isTourLike cur.type = false ∧ isTourLike t.type = false) := by
  unfold sameKind
  simp
  tauto

/-- No two consecutive emitted tasks are mergeable. -/
lemma mergeWalkGo_chain_not :
    ∀ (rest : List Task) (cur : Task),
      List.Chain' (fun a b => sameKind a b = false) (mergeWalkGo cur rest) := by
  intro rest
  induction rest with
  | nil => intro cur; simp [mergeWalkGo]
  | cons t rest ih =>
    intro cur
    simp only [mergeWalkGo]
    split
    · exact ih _
    · rename_i hsk
      rw [List.chain'_cons']
      refine ⟨?_, ih t⟩
      intro y hy
      obtain ⟨z, l', hl⟩ := mergeWalkGo_head rest t
      rw [hl] at hy
      simp at hy
      rw [← hy, sameKind_stop]
      simpa using hsk

/-- Walking a list with no mergeable adjacent pair changes nothing. -/
lemma mergeWalkGo_of_chain_not :
    ∀ (rest : List Task) (cur : Task),
      List.Chain' (fun a b => sameKind a b = false) (cur :: rest) →
      mergeWalkGo cur rest = cur :: rest := by
  intro rest
  induction rest with
  | nil => intro cur _; rfl
  | cons t rest ih =>
    intro cur hch
    rw [List.chain'_cons'] at hch
    have hsk : sameKind cur t = false := by simpa using hch.1
    simp only [mergeWalkGo, hsk]
    simp [ih t hch.2]

/-- The walk preserves sortedness by `start`. -/
lemma mergeWalkGo_sorted :
    ∀ (rest : List Task) (cur : Task),
      List.Pairwise (fun a b => a.start ≤ b.start) (cur :: rest) →
      List.Pairwise (fun a b => a.start ≤ b.start) (mergeWalkGo cur rest) := by
  intro rest
  induction rest with
  | nil => intro cur _; simp [mergeWalkGo]
  | cons t rest ih =>
    intro cur hs
    rw [List.pairwise_cons] at hs
    simp only [mergeWalkGo]
    split
    · refine ih _ (List.pairwise_cons.mpr ⟨?_, (List.pairwise_cons.mp hs.2).2⟩)
      intro a ha
      exact (hs.1 a (List.mem_cons_of_mem t ha) :)
    · refine List.pairwise_cons.mpr ⟨?_, ih t hs.2⟩
      intro p hp
      obtain ⟨q, hq, hfields⟩ := mergeWalkGo_mem rest t p hp
      rw [hfields.2.2.2.2]
      exact hs.1 q hq

/-- The employee's sorted array inside `mergeAdjacent` is sorted by
`start`. -/
lemma insertionSort_start_sorted (l : List Task) :
    List.Pairwise (fun a b => a.start ≤ b.start)
      (l.insertionSort startLE) := by
  haveI : IsTotal Task startLE := ⟨fun a b => le_total a.start b.start⟩
  haveI : IsTrans Task startLE := ⟨fun a b c hab hbc => le_trans hab hbc⟩
  exact List.sorted_insertionSort startLE l

/-! ## Claim C1 -/

/-- C1: for every call `resolveOverlaps(employeeId, start, end, exceptId?)`
with `0 ≤ start < end ≤ TOTAL_ROWS`, each existing task of that employee
other than the `exceptId` task is rewritten by its interval relation to
`[start, end)`: retained unchanged when `task.end ≤ start` or
`task.start ≥ end`; removed when `start ≤ task.start` and `task.end ≤ end`;
trimmed to `end = start` on a left overlap; trimmed to `start = end` on a
right overlap; and replaced by two copies keeping the original kind and
label when it straddles both sides — the classification `rewriteByRelation`
applied independently to every stored task. -/
theorem resolveOverlaps_classifies (empId : String) (s e : Int)
    (x : Option String) (prev : List Task)
    (h0 : 0 ≤ s) (h1 : s < e) (h2 : e ≤ TOTAL_ROWS) :
    resolveOverlaps empId s e x prev =
      prev.flatMap (rewriteByRelation empId s e x) :=
  resolveOverlaps_eq_flatMap empId s e x prev

/-- Witness for C1 at the concrete split example: task `[0,6)`, range
`[2,3)`. -/
theorem resolveOverlaps_classifies_witness :
    (0 : Int) ≤ 2 ∧ (2 : Int) < 3 ∧ (3 : Int) ≤ TOTAL_ROWS ∧
    resolveOverlaps "e" 2 3 none
        [⟨"t_1", "e", .gallery, "Gallery", 0, 6⟩] =
      [(⟨"t_1", "e", .gallery, "Gallery", 0, 6⟩ : Task)].flatMap
        (rewriteByRelation "e" 2 3 none) :=
  ⟨by decide, by decide, by decide,
    resolveOverlaps_classifies "e" 2 3 none
      [⟨"t_1", "e", .gallery, "Gallery", 0, 6⟩]
      (by decide) (by decide) (by decide)⟩

/-! ## Claim C7 -/

lemma toRow_rowToTime_nat :
    ∀ n : Nat, n ≤ 26 → toRow (rowToTime (n : Int)) = some (n : Int) := by
  decide

/-- C7: for every valid row index `r` in `[0, TOTAL_ROWS]`, converting it to
a wall-clock string and back is the identity: `toRow (rowToTime r) = r`. -/
theorem toRow_rowToTime (r : Int) (h0 : 0 ≤ r) (h1 : r ≤ TOTAL_ROWS) :
    toRow (rowToTime r) = some r := by
  have hr : r = (r.toNat : Int) := (Int.toNat_of_nonneg h0).symm
  have hn : r.toNat ≤ 26 := by
    unfold TOTAL_ROWS at h1; omega
  rw [hr]
  exact toRow_rowToTime_nat r.toNat hn

/-- Witness for C7 at row 5 (10:45). -/
theorem toRow_rowToTime_witness :
    (0 : Int) ≤ 5 ∧ (5 : Int) ≤ TOTAL_ROWS ∧
      toRow (rowToTime 5) = some 5 :=
  ⟨by decide, by decide, toRow_rowToTime 5 (by decide) (by decide)⟩

/-! ## Claim C9 -/

/-- C9: splitting a straddling task duplicates its id.  With the single
stored task `t_1 = [0,6)` and a resolution against `[2,3)`, the store holds
two tasks that both carry the id `"t_1"`, the task ids are no longer
pairwise distinct, and the keyboard deletion of `"t_1"` removes both
fragments at once. -/
theorem resolveOverlaps_split_duplicates_id :
    resolveOverlaps "e" 2 3 none [⟨"t_1", "e", .gallery, "Gallery", 0, 6⟩] =
        [⟨"t_1", "e", .gallery, "Gallery", 0, 2⟩,
         ⟨"t_1", "e", .gallery, "Gallery", 3, 6⟩] ∧
      ¬ ((resolveOverlaps "e" 2 3 none
            [⟨"t_1", "e", .gallery, "Gallery", 0, 6⟩]).map Task.id).Nodup ∧
      removeTask "t_1" (resolveOverlaps "e" 2 3 none
        [⟨"t_1", "e", .gallery, "Gallery", 0, 6⟩]) = [] := by
  refine ⟨by decide, ?_, by decide⟩
  decide

/-! ## Claim C8 -/

/-- Pieces of a target-employee task are all filtered out by the
other-employee filter. -/
lemma filter_ne_rewriteByRelation (E : String) (s e : Int) (x : Option String)
    (t : Task) (ht : t.empId = E) :
    (rewriteByRelation E s e x t).filter (fun p => decide (¬ p.empId = E)) =
      [] := by
  rw [List.filter_eq_nil_iff]
  intro p hp
  have hpe := (mem_rewriteByRelation hp).2.1
  simp [hpe, ht]

/-- The Overlap Resolver leaves the sublist of other employees' tasks
unchanged. -/
lemma resolveOverlaps_frame (E : String) (s e : Int) (x : Option String)
    (prev : List Task) :
    (resolveOverlaps E s e x prev).filter (fun t => decide (¬ t.empId = E)) =
      prev.filter (fun t => decide (¬ t.empId = E)) := by
  rw [resolveOverlaps_eq_flatMap]
  induction prev with
  | nil => rfl
  | cons t rest ih =>
    rw [List.flatMap_cons, List.filter_append, ih]
    by_cases ht : t.empId = E
    · rw [filter_ne_rewriteByRelation E s e x t ht]
      simp [List.filter_cons, ht]
    · rw [rewriteByRelation_of_guard (Or.inl ht)]
      simp [List.filter_cons, ht]

lemma mergeWalk_empId {E : String} (l : List Task)
    (hall : ∀ x ∈ l, x.empId = E) : ∀ p ∈ mergeWalk l, p.empId = E := by
  cases l with
  | nil => simp [mergeWalk]
  | cons t rest => exact mergeWalkGo_empId rest t hall

lemma sortedTarget_empId (E : String) (prev : List Task) :
    ∀ x ∈ (prev.filter (fun t => decide (t.empId = E))).insertionSort startLE, x.empId = E := by
  intro x hx
  have hx' := (List.perm_insertionSort startLE _).mem_iff.mp hx
  exact of_decide_eq_true (List.mem_filter.mp hx').2

/-- The Compactor leaves the sublist of other employees' tasks unchanged. -/
lemma mergeAdjacent_frame (E : String) (prev : List Task) :
    (mergeAdjacent E prev).filter (fun t => decide (¬ t.empId = E)) =
      prev.filter (fun t => decide (¬ t.empId = E)) := by
  show ((prev.filter fun t => decide (¬ t.empId = E)) ++
      mergeWalk ((prev.filter (fun t => decide (t.empId = E))).insertionSort startLE)).filter
        (fun t => decide (¬ t.empId = E)) = _
  rw [List.filter_append]
  have h1 : (prev.filter fun t => decide (¬ t.empId = E)).filter
      (fun t => decide (¬ t.empId = E)) =
      prev.filter fun t => decide (¬ t.empId = E) :=
    List.filter_eq_self.mpr fun a ha => (List.mem_filter.mp ha).2
  have h2 : (mergeWalk ((prev.filter (fun t => decide (t.empId = E))).insertionSort startLE)).filter
        (fun t => decide (¬ t.empId = E)) = [] := by
    rw [List.filter_eq_nil_iff]
    intro p hp
    have := mergeWalk_empId _ (sortedTarget_empId E prev) p hp
    simp [this]
  rw [h1, h2, List.append_nil]

/-- C8: for every `resolveOverlaps(employeeId, ...)` call and every
`mergeAdjacent(employeeId)` call, the sublist of tasks whose `empId` differs
from `employeeId` is exactly the same (same records — id, kind, label,
start, end — in the same order) before and after the call; in particular
the multiset of other employees' tasks is unchanged. -/
theorem otherEmployees_untouched (E : String) (s e : Int) (x : Option String)
    (prev : List Task) :
    (resolveOverlaps E s e x prev).filter (fun t => decide (¬ t.empId = E)) =
        prev.filter (fun t => decide (¬ t.empId = E)) ∧
      (mergeAdjacent E prev).filter (fun t => decide (¬ t.empId = E)) =
        prev.filter (fun t => decide (¬ t.empId = E)) :=
  ⟨resolveOverlaps_frame E s e x prev, mergeAdjacent_frame E prev⟩

/-! ## Claim C6 -/

lemma resolveOverlaps_idem (E : String) (s e : Int) (x : Option String)
    (prev : List Task) :
    resolveOverlaps E s e x (resolveOverlaps E s e x prev) =
      resolveOverlaps E s e x prev := by
  simp only [resolveOverlaps_eq_flatMap]
  apply flatMap_eq_self
  intro p hp
  obtain ⟨t, _, hpt⟩ := List.mem_flatMap.mp hp
  exact rewriteByRelation_fixed hpt

lemma mergeWalk_sorted (l : List Task)
    (h : List.Pairwise (fun a b => a.start ≤ b.start) l) :
    List.Pairwise (fun a b => a.start ≤ b.start) (mergeWalk l) := by
  cases l with
  | nil => simp [mergeWalk]
  | cons t rest => exact mergeWalkGo_sorted rest t h

lemma mergeWalk_chain_not (l : List Task) :
    List.Chain' (fun a b => sameKind a b = false) (mergeWalk l) := by
  cases l with
  | nil => simp [mergeWalk]
  | cons t rest => exact mergeWalkGo_chain_not rest t

lemma mergeWalk_of_chain_not (l : List Task)
    (h : List.Chain' (fun a b => sameKind a b = false) l) :
    mergeWalk l = l := by
  cases l with
  | nil => rfl
  | cons t rest => exact mergeWalkGo_of_chain_not rest t h

lemma mergeAdjacent_idem (E : String) (prev : List Task) :
    mergeAdjacent E (mergeAdjacent E prev) = mergeAdjacent E prev := by
  have hkeepE : ∀ p ∈ mergeWalk ((prev.filter
      (fun t => decide (t.empId = E))).insertionSort startLE), p.empId = E :=
    mergeWalk_empId _ (sortedTarget_empId E prev)
  show (((prev.filter fun t => decide (¬ t.empId = E)) ++
        mergeWalk _).filter fun t => decide (¬ t.empId = E)) ++
      mergeWalk ((((prev.filter fun t => decide (¬ t.empId = E)) ++
        mergeWalk _).filter fun t => decide (t.empId = E)).insertionSort startLE) = _
  rw [List.filter_append, List.filter_append]
  have h1 : (prev.filter fun t => decide (¬ t.empId = E)).filter
      (fun t => decide (¬ t.empId = E)) =
      prev.filter fun t => decide (¬ t.empId = E) :=
    List.filter_eq_self.mpr fun a ha => (List.mem_filter.mp ha).2
  have h2 : (mergeWalk ((prev.filter
      (fun t => decide (t.empId = E))).insertionSort startLE)).filter
        (fun t => decide (¬ t.empId = E)) = [] := by
    rw [List.filter_eq_nil_iff]
    intro p hp
    simp [hkeepE p hp]
  have h3 : (prev.filter fun t => decide (¬ t.empId = E)).filter
      (fun t => decide (t.empId = E)) = [] := by
    rw [List.filter_eq_nil_iff]
    intro p hp
    have := (List.mem_filter.mp hp).2
    simp at this ⊢
    exact this
  have h4 : (mergeWalk ((prev.filter
      (fun t => decide (t.empId = E))).insertionSort startLE)).filter
        (fun t => decide (t.empId = E)) =
      mergeWalk ((prev.filter (fun t => decide (t.empId = E))).insertionSort startLE) :=
    List.filter_eq_self.mpr fun a ha => by simp [hkeepE a ha]
  rw [h1, h2, h3, h4, List.append_nil, List.nil_append]
  have hsorted : List.Sorted startLE
      (mergeWalk ((prev.filter (fun t => decide (t.empId = E))).insertionSort startLE)) :=
    mergeWalk_sorted _ (insertionSort_start_sorted _)
  rw [List.Sorted.insertionSort_eq hsorted]
  rw [mergeWalk_of_chain_not _ (mergeWalk_chain_not _)]
  rfl

/-- C6: running `resolveOverlaps` twice with identical arguments yields the
same store as running it once, and running `mergeAdjacent` twice with the
same employee id yields the same store as running it once (exact equality
of the task list, which subsumes the per-employee task-list equality). -/
theorem resolver_compactor_idempotent (E : String) (s e : Int)
    (x : Option String) (prev : List Task) :
    resolveOverlaps E s e x (resolveOverlaps E s e x prev) =
        resolveOverlaps E s e x prev ∧
      mergeAdjacent E (mergeAdjacent E prev) = mergeAdjacent E prev :=
  ⟨resolveOverlaps_idem E s e x prev, mergeAdjacent_idem E prev⟩

/-! ## Claim C4 -/

/-- C4: `mergeAdjacent` merges a task into the last-kept one if and only if
both have the same kind, the same label, the last-kept one ends exactly
where the task starts, and neither is tour-like; and the employee's
resulting task list stays ordered by `start`. -/
theorem mergeAdjacent_policy :
    (∀ last t : Task, sameKind last t = true ↔
        (last.type = t.type ∧ last.label = t.label ∧ last.stop = t.start ∧
          isTourLike last.type = false ∧ isTourLike t.type = false)) ∧
      ∀ (E : String) (prev : List Task),
        List.Pairwise (fun a b => a.start ≤ b.start)
          ((mergeAdjacent E prev).filter (fun t => decide (t.empId = E))) := by
  constructor
  · intro last t
    exact sameKind_spec
  · intro E prev
    show List.Pairwise _ (((prev.filter fun t => decide (¬ t.empId = E)) ++
      mergeWalk ((prev.filter (fun t => decide (t.empId = E))).insertionSort startLE)).filter
          (fun t => decide (t.empId = E)))
    rw [List.filter_append]
    have h3 : (prev.filter fun t => decide (¬ t.empId = E)).filter
        (fun t => decide (t.empId = E)) = [] := by
      rw [List.filter_eq_nil_iff]
      intro p hp
      have := (List.mem_filter.mp hp).2
      simp at this ⊢
      exact this
    rw [h3, List.nil_append]
    exact (mergeWalk_sorted _ (insertionSort_start_sorted _)).filter _

/-! ## Claim C5 -/

/-- A tour-like task is emitted unchanged by the walk, wherever it sits. -/
lemma mergeWalkGo_tourLike :
    ∀ (rest : List Task) (cur : Task),
      (isTourLike cur.type = true → cur ∈ mergeWalkGo cur rest) ∧
        ∀ t ∈ rest, isTourLike t.type = true → t ∈ mergeWalkGo cur rest := by
  intro rest
  induction rest with
  | nil =>
    intro cur
    exact ⟨fun _ => by simp [mergeWalkGo], fun t ht => by simp at ht⟩
  | cons t rest ih =>
    intro cur
    simp only [mergeWalkGo]
    split
    · rename_i hsk
      have hcur : isTourLike cur.type = false := (sameKind_spec.mp hsk).2.2.2.1
      have ht : isTourLike t.type = false := (sameKind_spec.mp hsk).2.2.2.2
      refine ⟨fun h => absurd h (by simp [hcur]), ?_⟩
      intro u hu htu
      rcases List.mem_cons.mp hu with hu | hu
      · subst hu; exact absurd htu (by simp [ht])
      · exact (ih _).2 u hu htu
    · refine ⟨fun _ => List.mem_cons_self _ _, ?_⟩
      intro u hu htu
      rcases List.mem_cons.mp hu with hu | hu
      · subst hu
        exact List.mem_cons_of_mem cur ((ih u).1 htu)
      · exact List.mem_cons_of_mem cur ((ih t).2 u hu htu)

lemma mergeWalk_tourLike (l : List Task) :
    ∀ t ∈ l, isTourLike t.type = true → t ∈ mergeWalk l := by
  cases l with
  | nil => simp
  | cons c rest =>
    intro t ht htt
    rcases List.mem_cons.mp ht with ht | ht
    · subst ht; exact (mergeWalkGo_tourLike rest t).1 htt
    · exact (mergeWalkGo_tourLike rest c).2 t ht htt

/-- C5: the tour-like kinds are exactly `tour` and `school-program`; a
tour-like task is never merged by `mergeAdjacent` (it survives as the very
same record); and `addTaskAt` invokes the Compactor exactly when the placed
kind is not tour-like. -/
theorem tourLike_locking :
    (∀ ty : TaskType, isTourLike ty = true ↔
        (ty = .tour ∨ ty = .schoolProgram)) ∧
      (∀ (E : String) (prev : List Task) (t : Task), t ∈ prev →
        t.empId = E → isTourLike t.type = true → t ∈ mergeAdjacent E prev) ∧
      ∀ (E : String) (row : Int) (ty : TaskType) (st : Store),
        (isTourLike ty = true →
          (addTaskAt E row ty st).tasks =
            resolveOverlaps E row (row + 1) none st.tasks ++
              [⟨uid (st.seq + 1), E, ty, TYPE_LABEL ty, row, row + 1⟩]) ∧
        (isTourLike ty = false →
          (addTaskAt E row ty st).tasks =
            mergeAdjacent E (resolveOverlaps E row (row + 1) none st.tasks ++
              [⟨uid (st.seq + 1), E, ty, TYPE_LABEL ty, row, row + 1⟩])) := by
  refine ⟨?_, ?_, ?_⟩
  · intro ty
    cases ty <;> decide
  · intro E prev t ht hemp htt
    have h1 : t ∈ prev.filter fun t => decide (t.empId = E) :=
      List.mem_filter.mpr ⟨ht, by simp [hemp]⟩
    have h2 : t ∈ (prev.filter (fun t => decide (t.empId = E))).insertionSort startLE :=
      (List.perm_insertionSort startLE _).mem_iff.mpr h1
    have h3 := mergeWalk_tourLike _ t h2 htt
    exact List.mem_append_right _ h3
  · intro E row ty st
    constructor
    · intro h
      simp [addTaskAt, h]
    · intro h
      simp [addTaskAt, h]

/-- Witness for C5 at a concrete tour task adjacent to an identical one. -/
theorem tourLike_locking_witness :
    (⟨"a", "e", .tour, "Public Tour", 1, 2⟩ : Task) ∈
        [(⟨"a", "e", .tour, "Public Tour", 1, 2⟩ : Task),
         ⟨"b", "e", .tour, "Public Tour", 2, 3⟩] ∧
      (⟨"a", "e", .tour, "Public Tour", 1, 2⟩ : Task).empId = "e" ∧
      isTourLike (⟨"a", "e", .tour, "Public Tour", 1, 2⟩ : Task).type = true ∧
      (⟨"a", "e", .tour, "Public Tour", 1, 2⟩ : Task) ∈
        mergeAdjacent "e"
          [⟨"a", "e", .tour, "Public Tour", 1, 2⟩,
           ⟨"b", "e", .tour, "Public Tour", 2, 3⟩] :=
  ⟨by decide, by decide, by decide,
    tourLike_locking.2.1 "e"
      [⟨"a", "e", .tour, "Public Tour", 1, 2⟩,
       ⟨"b", "e", .tour, "Public Tour", 2, 3⟩]
      ⟨"a", "e", .tour, "Public Tour", 1, 2⟩
      (by decide) (by decide) (by decide)⟩

/-! ## Invariant machinery: well-formedness and separation -/

/-- Ordered separation: the first task ends no later than the second
starts. -/
def ordSep (a b : Task) : Prop := a.stop ≤ b.start

lemma rangesDisjoint_of_sep {a b : Task} (h : sep a b) : rangesDisjoint a b := by
  intro r hr
  rcases h with h | h <;> omega

lemma sep_of_rangesDisjoint {a b : Task} (ha : a.start < a.stop)
    (hb : b.start < b.stop) (h : rangesDisjoint a b) : sep a b := by
  by_contra hc
  rw [sep, not_or] at hc
  rcases le_total a.start b.start with hab | hab
  · exact h b.start (by omega)
  · exact h a.start (by omega)

lemma empSep_of_empDisjoint {ts : List Task} (hwf : Wf ts)
    (h : EmpDisjoint ts) : EmpSep ts :=
  h.imp_of_mem fun ha hb hr he =>
    sep_of_rangesDisjoint (hwf _ ha) (hwf _ hb) (hr he)

lemma empDisjoint_of_empSep {ts : List Task} (h : EmpSep ts) :
    EmpDisjoint ts :=
  h.imp fun hr he => rangesDisjoint_of_sep (hr he)

/-- The Overlap Resolver keeps all tasks well-formed. -/
lemma resolveOverlaps_wf {E : String} {s e : Int} {x : Option String}
    {ts : List Task} (hwf : Wf ts) : Wf (resolveOverlaps E s e x ts) := by
  intro p hp
  rw [resolveOverlaps_eq_flatMap] at hp
  obtain ⟨t, ht, hpt⟩ := List.mem_flatMap.mp hp
  exact (mem_rewriteByRelation hpt).2.2.2.2.2.2 (hwf t ht)

/-- The pieces produced from a single task are pairwise separated. -/
lemma pairwise_sep_rewriteByRelation {E : String} {s e : Int}
    {x : Option String} (t : Task) (hse : s ≤ e) :
    List.Pairwise sep (rewriteByRelation E s e x t) := by
  unfold rewriteByRelation
  split
  · simp
  · split
    · simp
    · split
      · simp
      · split
        · simp
        · split
          · simp
          · refine List.pairwise_cons.mpr ⟨?_, by simp⟩
            intro b hb
            simp at hb
            subst hb
            exact Or.inl hse

/-- The Overlap Resolver preserves per-employee separation. -/
lemma resolveOverlaps_empSep {E : String} {s e : Int} {x : Option String}
    {ts : List Task} (hse : s ≤ e) (h : EmpSep ts) :
    EmpSep (resolveOverlaps E s e x ts) := by
  rw [resolveOverlaps_eq_flatMap, EmpSep, List.pairwise_flatMap]
  constructor
  · intro t _
    refine (pairwise_sep_rewriteByRelation t hse).imp ?_
    intro a b hs _
    exact hs
  · refine h.imp_of_mem ?_
    intro a b _ _ hab p hp q hq hpq
    have hpa := mem_rewriteByRelation hp
    have hqb := mem_rewriteByRelation hq
    have hemp : a.empId = b.empId := by
      rw [← hpa.2.1, ← hqb.2.1]; exact hpq
    rcases hab hemp with h1 | h1
    · exact Or.inl (by
        have h2 := hpa.2.2.2.2.2.1
        have h3 := hqb.2.2.2.2.1
        omega)
    · exact Or.inr (by
        have h2 := hqb.2.2.2.2.2.1
        have h3 := hpa.2.2.2.2.1
        omega)

/-- After resolution with no `exceptId`, every remaining task of the
target employee is outside `[s, e)`. -/
lemma resolveOverlaps_clears {E : String} {s e : Int} {ts : List Task} :
    ∀ p ∈ resolveOverlaps E s e none ts, p.empId = E →
      p.stop ≤ s ∨ p.start ≥ e := by
  intro p hp hemp
  rw [resolveOverlaps_eq_flatMap] at hp
  obtain ⟨t, _, hpt⟩ := List.mem_flatMap.mp hp
  exact rewriteByRelation_clears hpt hemp

/-- An ordered-separation chain of well-formed tasks is pairwise
separated. -/
lemma chain_ordSep_pairwise :
    ∀ l : List Task, List.Chain' ordSep l → Wf l →
      List.Pairwise ordSep l := by
  intro l
  induction l with
  | nil => intro _ _; exact List.Pairwise.nil
  | cons a rest ih =>
    intro hch hwf
    rw [List.chain'_cons'] at hch
    have hrest := ih hch.2 fun t ht => hwf t (List.mem_cons_of_mem a ht)
    refine List.pairwise_cons.mpr ⟨?_, hrest⟩
    intro b hb
    cases rest with
    | nil => simp at hb
    | cons c rest' =>
      have hac : ordSep a c := hch.1 c (by simp)
      rcases List.mem_cons.mp hb with hb | hb
      · subst hb; exact hac
      · have hcb : ordSep c b := (List.pairwise_cons.mp hrest).1 b hb
        have hcwf := hwf c (by simp)
        unfold ordSep at *
        omega

/-- The Compactor walk preserves the ordered-separation chain and
well-formedness. -/
lemma mergeWalkGo_chain_wf :
    ∀ (rest : List Task) (cur : Task),
      List.Chain' ordSep (cur :: rest) → Wf (cur :: rest) →
      List.Chain' ordSep (mergeWalkGo cur rest) ∧
        Wf (mergeWalkGo cur rest) := by
  intro rest
  induction rest with
  | nil =>
    intro cur _ hwf
    refine ⟨by simp [mergeWalkGo], ?_⟩
    intro u hu
    simp [mergeWalkGo] at hu
    subst hu
    exact hwf _ (by simp)
  | cons t rest ih =>
    intro cur hch hwf
    rw [List.chain'_cons'] at hch
    simp only [mergeWalkGo]
    split
    · rename_i hsk
      have hf := sameKind_spec.mp hsk
      apply ih
      · rw [List.chain'_cons']
        refine ⟨?_, (List.chain'_cons'.mp hch.2).2⟩
        intro y hy
        exact (List.chain'_cons'.mp hch.2).1 y hy
      · intro u hu
        rcases List.mem_cons.mp hu with hu | hu
        · subst hu
          show cur.start < t.stop
          have h1 := hwf cur (by simp)
          have h2 := hwf t (by simp)
          have h3 := hf.2.2.1
          omega
        · exact hwf u (by simp [hu])
    · have ih' := ih t hch.2
        (fun u hu => hwf u (List.mem_cons_of_mem cur hu))
      refine ⟨?_, ?_⟩
      · rw [List.chain'_cons']
        refine ⟨?_, ih'.1⟩
        intro y hy
        obtain ⟨z, l', hl⟩ := mergeWalkGo_head rest t
        rw [hl] at hy
        simp at hy
        have hct : ordSep cur t := hch.1 t (by simp)
        rw [← hy]
        exact hct
      · intro u hu
        rcases List.mem_cons.mp hu with hu | hu
        · subst hu; exact hwf _ (by simp)
        · exact ih'.2 u hu

lemma mergeWalk_chain_wf (l : List Task) (hch : List.Chain' ordSep l)
    (hwf : Wf l) :
    List.Chain' ordSep (mergeWalk l) ∧ Wf (mergeWalk l) := by
  cases l with
  | nil => exact ⟨List.chain'_nil, fun t ht => absurd ht (by simp [mergeWalk])⟩
  | cons t rest => exact mergeWalkGo_chain_wf rest t hch hwf

/-- The Compactor preserves well-formedness and per-employee separation. -/
lemma mergeAdjacent_wf_sep {E : String} {prev : List Task} (hwf : Wf prev)
    (hsep : EmpSep prev) :
    Wf (mergeAdjacent E prev) ∧ EmpSep (mergeAdjacent E prev) := by
  have harrwf : Wf ((prev.filter (fun t => decide (t.empId = E))).insertionSort startLE) := by
    intro t ht
    exact hwf t (List.mem_filter.mp ((List.perm_insertionSort startLE _).mem_iff.mp ht)).1
  have harrE := sortedTarget_empId E prev
  have hsymm : ∀ {x y : Task}, (x.empId = y.empId → sep x y) →
      (y.empId = x.empId → sep y x) :=
    fun h he => Or.symm (h he.symm)
  have harrsepR : List.Pairwise (fun a b => a.empId = b.empId → sep a b)
      ((prev.filter (fun t => decide (t.empId = E))).insertionSort startLE) :=
    ((List.perm_insertionSort startLE _).pairwise_iff hsymm).mpr (hsep.filter _)
  have harrsep : List.Pairwise sep
      ((prev.filter (fun t => decide (t.empId = E))).insertionSort startLE) :=
    harrsepR.imp_of_mem fun ha hb h =>
      h (by rw [harrE _ ha, harrE _ hb])
  have harrOrd : List.Pairwise ordSep
      ((prev.filter (fun t => decide (t.empId = E))).insertionSort startLE) := by
    refine ((insertionSort_start_sorted _).and harrsep).imp_of_mem ?_
    intro a b _ hb h
    rcases h.2 with h1 | h1
    · exact h1
    · have := harrwf b hb
      have := h.1
      unfold ordSep
      omega
  have hkeep := mergeWalk_chain_wf _ harrOrd.chain' harrwf
  have hkeepPair := chain_ordSep_pairwise _ hkeep.1 hkeep.2
  have hkeepE := mergeWalk_empId _ harrE
  constructor
  · intro u hu
    rcases List.mem_append.mp hu with hu | hu
    · exact hwf u (List.mem_filter.mp hu).1
    · exact hkeep.2 u hu
  · refine List.pairwise_append.mpr ⟨hsep.filter _, ?_, ?_⟩
    · exact hkeepPair.imp fun h _ => Or.inl h
    · intro a ha b hb he
      have h1 := (List.mem_filter.mp ha).2
      simp at h1
      exact absurd (he.trans (hkeepE b hb)) h1

/-- The task list produced by `addTaskAt`, by tour-likeness of the placed
kind. -/
lemma addTaskAt_tasks (E : String) (row : Int) (ty : TaskType) (st : Store) :
    (addTaskAt E row ty st).tasks =
      if isTourLike ty = true then
        resolveOverlaps E row (row + 1) none st.tasks ++
          [⟨uid (st.seq + 1), E, ty, TYPE_LABEL ty, row, row + 1⟩]
      else
        mergeAdjacent E (resolveOverlaps E row (row + 1) none st.tasks ++
          [⟨uid (st.seq + 1), E, ty, TYPE_LABEL ty, row, row + 1⟩]) := by
  by_cases h : isTourLike ty = true
  · simp [addTaskAt, h]
  · rw [Bool.not_eq_true] at h
    simp [addTaskAt, h]

/-- One `addTaskAt` call preserves well-formedness and per-employee
separation. -/
lemma addTaskAt_wf_sep (E : String) (row : Int) (ty : TaskType) (st : Store)
    (hwf : Wf st.tasks) (hsep : EmpSep st.tasks) :
    Wf (addTaskAt E row ty st).tasks ∧ EmpSep (addTaskAt E row ty st).tasks := by
  have h1 : Wf (resolveOverlaps E row (row + 1) none st.tasks) :=
    resolveOverlaps_wf hwf
  have h2 : EmpSep (resolveOverlaps E row (row + 1) none st.tasks) :=
    resolveOverlaps_empSep (by omega) hsep
  have hwf2 : Wf (resolveOverlaps E row (row + 1) none st.tasks ++
      [⟨uid (st.seq + 1), E, ty, TYPE_LABEL ty, row, row + 1⟩]) := by
    intro u hu
    rcases List.mem_append.mp hu with hu | hu
    · exact h1 u hu
    · simp at hu
      subst hu
      show row < row + 1
      omega
  have hsep2 : EmpSep (resolveOverlaps E row (row + 1) none st.tasks ++
      [⟨uid (st.seq + 1), E, ty, TYPE_LABEL ty, row, row + 1⟩]) := by
    refine List.pairwise_append.mpr ⟨h2, by simp [List.pairwise_singleton], ?_⟩
    intro a ha b hb he
    simp at hb
    subst hb
    have ha' : a.empId = E := he
    rcases resolveOverlaps_clears a ha ha' with h | h
    · exact Or.inl h
    · exact Or.inr h
  rw [addTaskAt_tasks]
  by_cases h : isTourLike ty = true
  · rw [if_pos h]
    exact ⟨hwf2, hsep2⟩
  · rw [if_neg h]
    exact mergeAdjacent_wf_sep hwf2 hsep2

/-! ## Claim C2 -/

/-- C2 as stated is falsified by a store whose tasks are pairwise disjoint
but contain a zero-length task: `addTaskAt` never removes or repairs it, so
after a placement the store still holds a task with `start = end`. -/
theorem placeTask_invariant_counterexample :
    EmpDisjoint [⟨"a", "e", .front, "Front Desk", 3, 3⟩] ∧
      ∃ t ∈ (placeCalls [("e", 0, TaskType.front)]
          ⟨[⟨"a", "e", .front, "Front Desk", 3, 3⟩], 0⟩).tasks,
        ¬ t.start < t.stop := by
  constructor
  · exact List.pairwise_singleton _ _
  · decide

/-- C2 (amended: the initial store's tasks must also be well-formed, i.e.
`start < end`; a pre-existing zero-length task is never repaired): after
any sequence of `addTaskAt` calls starting from a store whose tasks are
well-formed and per-employee pairwise disjoint, every two distinct tasks of
one employee have disjoint `[start, end)` ranges and every task satisfies
`start < end`. -/
theorem placeTask_no_overlap_invariant
    (calls : List (String × Int × TaskType)) (st : Store)
    (hwf : Wf st.tasks) (hd : EmpDisjoint st.tasks) :
    Wf (placeCalls calls st).tasks ∧
      EmpDisjoint (placeCalls calls st).tasks := by
  suffices h : ∀ st : Store, Wf st.tasks → EmpSep st.tasks →
      Wf (placeCalls calls st).tasks ∧ EmpSep (placeCalls calls st).tasks by
    obtain ⟨hw, hs⟩ := h st hwf (empSep_of_empDisjoint hwf hd)
    exact ⟨hw, empDisjoint_of_empSep hs⟩
  induction calls with
  | nil => exact fun st hw hs => ⟨hw, hs⟩
  | cons c cs ih =>
    intro st hw hs
    have hstep := addTaskAt_wf_sep c.1 c.2.1 c.2.2 st hw hs
    exact ih _ hstep.1 hstep.2

/-- Witness for C2 (amended) starting from the empty store. -/
theorem placeTask_no_overlap_invariant_witness :
    Wf (⟨[], 0⟩ : Store).tasks ∧ EmpDisjoint (⟨[], 0⟩ : Store).tasks ∧
      (Wf (placeCalls [("e", 2, TaskType.front), ("e", 3, TaskType.front)]
          ⟨[], 0⟩).tasks ∧
        EmpDisjoint (placeCalls
          [("e", 2, TaskType.front), ("e", 3, TaskType.front)]
          ⟨[], 0⟩).tasks) :=
  ⟨fun t ht => absurd ht (by simp), List.Pairwise.nil,
    placeTask_no_overlap_invariant
      [("e", 2, TaskType.front), ("e", 3, TaskType.front)] ⟨[], 0⟩
      (fun t ht => absurd ht (by simp)) List.Pairwise.nil⟩

/-! ## Claim C10: coverage preservation -/

lemma coversKL_cons {k : TaskType} {lab : String} {r : Int} {x : Task}
    {l : List Task} :
    coversKL k lab r (x :: l) ↔
      (x.type = k ∧ x.label = lab ∧ x.start ≤ r ∧ r < x.stop) ∨
        coversKL k lab r l := by
  constructor
  · rintro ⟨t, ht, hp⟩
    rcases List.mem_cons.mp ht with h | h
    · subst h; exact Or.inl hp
    · exact Or.inr ⟨t, h, hp⟩
  · rintro (hx | ⟨t, ht, hp⟩)
    · exact ⟨x, by simp, hx⟩
    · exact ⟨t, by simp [ht], hp⟩

/-- The walk neither gains nor loses covered slots (per kind and label),
for well-formed input. -/
lemma mergeWalkGo_coversKL {k : TaskType} {lab : String} {r : Int} :
    ∀ (rest : List Task) (cur : Task), Wf (cur :: rest) →
      (coversKL k lab r (mergeWalkGo cur rest) ↔
        coversKL k lab r (cur :: rest)) := by
  intro rest
  induction rest with
  | nil => intro cur _; rfl
  | cons t rest ih =>
    intro cur hwf
    simp only [mergeWalkGo]
    split
    · rename_i hsk
      have hf := sameKind_spec.mp hsk
      have hwfc := hwf cur (by simp)
      have hwft := hwf t (by simp)
      have h1 : Wf ({ cur with stop := t.stop } :: rest) := by
        intro u hu
        rcases List.mem_cons.mp hu with hu | hu
        · subst hu
          show cur.start < t.stop
          have h3 := hf.2.2.1
          omega
        · exact hwf u (by simp [hu])
      rw [ih _ h1, coversKL_cons, coversKL_cons, coversKL_cons]
      have h3 := hf.2.2.1
      dsimp only
      constructor
      · rintro (⟨h4, h5, h6, h7⟩ | hc)
        · by_cases hr : r < cur.stop
          · exact Or.inl ⟨h4, h5, h6, hr⟩
          · exact Or.inr (Or.inl ⟨hf.1 ▸ h4, hf.2.1 ▸ h5, by omega, h7⟩)
        · exact Or.inr (Or.inr hc)
      · rintro (⟨h4, h5, h6, h7⟩ | ⟨h4, h5, h6, h7⟩ | hc)
        · exact Or.inl ⟨h4, h5, h6, by omega⟩
        · exact Or.inl ⟨hf.1.symm ▸ h4, hf.2.1.symm ▸ h5, by omega, h7⟩
        · exact Or.inr hc
    · rw [coversKL_cons, coversKL_cons,
        ih t (fun u hu => hwf u (List.mem_cons_of_mem cur hu))]

lemma mergeWalk_coversKL {k : TaskType} {lab : String} {r : Int}
    (l : List Task) (hwf : Wf l) :
    coversKL k lab r (mergeWalk l) ↔ coversKL k lab r l := by
  cases l with
  | nil => rfl
  | cons t rest => exact mergeWalkGo_coversKL rest t hwf

lemma coversKL_of_perm {k : TaskType} {lab : String} {r : Int}
    {l₁ l₂ : List Task} (h : l₁.Perm l₂) :
    coversKL k lab r l₁ ↔ coversKL k lab r l₂ := by
  unfold coversKL
  constructor
  · rintro ⟨t, ht, hp⟩; exact ⟨t, h.mem_iff.mp ht, hp⟩
  · rintro ⟨t, ht, hp⟩; exact ⟨t, h.mem_iff.mpr ht, hp⟩

lemma covers_append {E : String} {k : TaskType} {lab : String} {r : Int}
    {l₁ l₂ : List Task} :
    covers E k lab r (l₁ ++ l₂) ↔
      covers E k lab r l₁ ∨ covers E k lab r l₂ := by
  unfold covers
  constructor
  · rintro ⟨t, ht, hp⟩
    rcases List.mem_append.mp ht with h | h
    · exact Or.inl ⟨t, h, hp⟩
    · exact Or.inr ⟨t, h, hp⟩
  · rintro (⟨t, ht, hp⟩ | ⟨t, ht, hp⟩)
    · exact ⟨t, List.mem_append_left _ ht, hp⟩
    · exact ⟨t, List.mem_append_right _ ht, hp⟩

/-- Coverage by employee `E` within a list whose members all belong to `E`
is plain kind/label coverage. -/
lemma covers_of_all_emp {E : String} {k : TaskType} {lab : String} {r : Int}
    {l : List Task} (hall : ∀ t ∈ l, t.empId = E) :
    covers E k lab r l ↔ coversKL k lab r l := by
  unfold covers coversKL
  constructor
  · rintro ⟨t, ht, hp⟩; exact ⟨t, ht, hp.2⟩
  · rintro ⟨t, ht, hp⟩; exact ⟨t, ht, hall t ht, hp⟩

/-- The Compactor preserves the employee's coverage, for every row, kind
and label, as long as the employee's own tasks are well-formed (tasks of
other employees are irrelevant: they are neither walked nor counted). -/
lemma covers_mergeAdjacent (E : String) (k : TaskType) (lab : String)
    (r : Int) (prev : List Task)
    (hwf : Wf (prev.filter (fun t => decide (t.empId = E)))) :
    covers E k lab r (mergeAdjacent E prev) ↔ covers E k lab r prev := by
  have hperm := List.perm_insertionSort startLE
    (prev.filter (fun t => decide (t.empId = E)))
  have harrE := sortedTarget_empId E prev
  have harrwf : Wf ((prev.filter (fun t => decide (t.empId = E))).insertionSort
      startLE) := by
    intro t ht
    exact hwf t (hperm.mem_iff.mp ht)
  have hkeepE := mergeWalk_empId _ harrE
  show covers E k lab r ((prev.filter fun t => decide (¬ t.empId = E)) ++
    mergeWalk ((prev.filter (fun t => decide (t.empId = E))).insertionSort
      startLE)) ↔ _
  rw [covers_append]
  have hothers : ¬ covers E k lab r
      (prev.filter fun t => decide (¬ t.empId = E)) := by
    rintro ⟨t, ht, hp⟩
    have := (List.mem_filter.mp ht).2
    simp at this
    exact this hp.1
  have hkeep : covers E k lab r (mergeWalk ((prev.filter
      (fun t => decide (t.empId = E))).insertionSort startLE)) ↔
      covers E k lab r prev := by
    rw [covers_of_all_emp hkeepE, mergeWalk_coversKL _ harrwf,
      coversKL_of_perm hperm]
    unfold covers coversKL
    constructor
    · rintro ⟨t, ht, hp⟩
      have ht' := List.mem_filter.mp ht
      exact ⟨t, ht'.1, of_decide_eq_true ht'.2, hp⟩
    · rintro ⟨t, ht, hp⟩
      exact ⟨t, List.mem_filter.mpr ⟨ht, by simp [hp.1]⟩, hp.2⟩
  rw [hkeep]
  tauto

/-- C10 as stated is falsified by an employee whose tasks are pairwise
disjoint as row sets, one of them being the inverted (hence empty) range
`[5, 3)`: the walk merges the contiguous pair and *shrinks* `[1,5)` to
`[1,3)`, losing the coverage of row 3. -/
theorem mergeAdjacent_coverage_counterexample :
    (([⟨"a", "e", .gallery, "Gallery", 1, 5⟩,
       ⟨"b", "e", .gallery, "Gallery", 5, 3⟩] : List Task).filter
        (fun t => decide (t.empId = "e"))).Pairwise rangesDisjoint ∧
      covers "e" .gallery "Gallery" 3
        [⟨"a", "e", .gallery, "Gallery", 1, 5⟩,
         ⟨"b", "e", .gallery, "Gallery", 5, 3⟩] ∧
      ¬ covers "e" .gallery "Gallery" 3
        (mergeAdjacent "e"
          [⟨"a", "e", .gallery, "Gallery", 1, 5⟩,
           ⟨"b", "e", .gallery, "Gallery", 5, 3⟩]) := by
  refine ⟨?_, by decide, by decide⟩
  refine List.Pairwise.cons ?_ (List.pairwise_singleton _ _)
  intro b hb
  simp at hb
  subst hb
  intro x
  show ¬ ((1 : Int) ≤ x ∧ x < 5 ∧ 5 ≤ x ∧ x < 3)
  omega

/-- C10 (amended: the employee's tasks must also be well-formed,
`start < end` — an inverted range is disjoint from everything as a row set
yet triggers a coverage-shrinking merge): for every employee whose tasks
are pairwise disjoint and well-formed, `mergeAdjacent` preserves that
employee's coverage: for every row `r`, kind `k` and label `l`, some task
of the employee with kind `k` and label `l` covers `r` after the call iff
one did before. -/
theorem mergeAdjacent_preserves_coverage (E : String) (k : TaskType)
    (lab : String) (r : Int) (prev : List Task)
    (hwf : Wf (prev.filter (fun t => decide (t.empId = E))))
    (hdisj : ((prev.filter (fun t => decide (t.empId = E))).Pairwise
      rangesDisjoint)) :
    covers E k lab r (mergeAdjacent E prev) ↔ covers E k lab r prev :=
  covers_mergeAdjacent E k lab r prev hwf

/-- Witness for C10 (amended) on two disjoint gallery blocks. -/
theorem mergeAdjacent_preserves_coverage_witness :
    Wf (([⟨"a", "e", .gallery, "Gallery", 1, 3⟩,
          ⟨"b", "e", .gallery, "Gallery", 3, 5⟩] : List Task).filter
        (fun t => decide (t.empId = "e"))) ∧
      (([⟨"a", "e", .gallery, "Gallery", 1, 3⟩,
         ⟨"b", "e", .gallery, "Gallery", 3, 5⟩] : List Task).filter
          (fun t => decide (t.empId = "e"))).Pairwise rangesDisjoint ∧
      (covers "e" .gallery "Gallery" 4
          (mergeAdjacent "e"
            [⟨"a", "e", .gallery, "Gallery", 1, 3⟩,
             ⟨"b", "e", .gallery, "Gallery", 3, 5⟩]) ↔
        covers "e" .gallery "Gallery" 4
          [⟨"a", "e", .gallery, "Gallery", 1, 3⟩,
           ⟨"b", "e", .gallery, "Gallery", 3, 5⟩]) := by
  refine ⟨by decide, ?_, ?_⟩
  · refine List.Pairwise.cons ?_ (List.pairwise_singleton _ _)
    intro b hb
    simp at hb
    subst hb
    intro x
    show ¬ ((1 : Int) ≤ x ∧ x < 3 ∧ 3 ≤ x ∧ x < 5)
    omega
  · refine mergeAdjacent_preserves_coverage "e" .gallery "Gallery" 4 _
      (by decide) ?_
    refine List.Pairwise.cons ?_ (List.pairwise_singleton _ _)
    intro b hb
    simp at hb
    subst hb
    intro x
    show ¬ ((1 : Int) ≤ x ∧ x < 3 ∧ 3 ≤ x ∧ x < 5)
    omega

/-! ## Claim C3 -/

/-- C3 as stated is falsified: `addTaskAt` contains no validation at all.
With row 30 (outside `[0, TOTAL_ROWS)`) and the employee id `"ghost"`
(stored nowhere), the call still mutates the store and creates the task
`[30, 31)` instead of failing with `InvalidRange`/`NotFound` and leaving
the store unchanged. -/
theorem addTaskAt_no_validation_counterexample :
    ¬ ((0 : Int) ≤ 30 ∧ (30 : Int) < TOTAL_ROWS) ∧
      addTaskAt "ghost" 30 .front ⟨[], 0⟩ ≠ (⟨[], 0⟩ : Store) ∧
      (addTaskAt "ghost" 30 .front ⟨[], 0⟩).tasks =
        [⟨"t_1", "ghost", .front, "Front Desk", 30, 31⟩] := by
  refine ⟨by decide, by decide, by decide⟩

/-- C3 (amended: the code has no `InvalidRange` or `NotFound` conditions;
`addTaskAt` validates neither the row nor the employee id and always
performs the placement): for every row — including rows outside
`[0, TOTAL_ROWS)` — and every employee id — including ids stored nowhere —
`addTaskAt` increments the id counter and, provided the store's tasks are
well-formed, leaves the employee with a task of the placed kind and
canonical label covering `row`; the store is mutated, never left
unchanged with an error. -/
theorem addTaskAt_no_validation (E : String) (row : Int) (ty : TaskType)
    (st : Store) (hwf : Wf st.tasks) :
    (addTaskAt E row ty st).seq = st.seq + 1 ∧
      covers E ty (TYPE_LABEL ty) row (addTaskAt E row ty st).tasks := by
  refine ⟨rfl, ?_⟩
  have hwf2 : Wf (resolveOverlaps E row (row + 1) none st.tasks ++
      [⟨uid (st.seq + 1), E, ty, TYPE_LABEL ty, row, row + 1⟩]) := by
    intro u hu
    rcases List.mem_append.mp hu with hu | hu
    · exact resolveOverlaps_wf hwf u hu
    · simp at hu
      subst hu
      show row < row + 1
      omega
  have hcov : covers E ty (TYPE_LABEL ty) row
      (resolveOverlaps E row (row + 1) none st.tasks ++
        [⟨uid (st.seq + 1), E, ty, TYPE_LABEL ty, row, row + 1⟩]) := by
    refine ⟨⟨uid (st.seq + 1), E, ty, TYPE_LABEL ty, row, row + 1⟩,
      List.mem_append_right _ (by simp), rfl, rfl, rfl, le_refl _, ?_⟩
    show row < row + 1
    omega
  rw [addTaskAt_tasks]
  by_cases h : isTourLike ty = true
  · rw [if_pos h]
    exact hcov
  · rw [if_neg h]
    exact (covers_mergeAdjacent E ty (TYPE_LABEL ty) row _
      (fun t ht => hwf2 t (List.mem_filter.mp ht).1)).mpr hcov

/-- Witness for C3 (amended) at the out-of-range row 30 and an unknown
employee id, from the empty store. -/
theorem addTaskAt_no_validation_witness :
    Wf (⟨[], 0⟩ : Store).tasks ∧
      (addTaskAt "ghost" 30 .front ⟨[], 0⟩).seq = 0 + 1 ∧
      covers "ghost" .front (TYPE_LABEL .front) 30
        (addTaskAt "ghost" 30 .front ⟨[], 0⟩).tasks :=
  ⟨by decide, addTaskAt_no_validation "ghost" 30 .front ⟨[], 0⟩ (by decide)⟩

end Roster
